import Mathlib

/-
  Verification of the SAC_TBB histogram pipeline (src/main.cpp).

  The program classifies an array of non-negative integers into a cumulative
  histogram in three stages: map each value to a one-hot bin vector, reduce the
  vectors element-wise into a histogram, and scan the histogram into running
  totals.  A parallel variant (TBB parallel_for / parallel_reduce /
  parallel_scan) and a sequential variant implement the same stages.

  Machine ints are modelled as Nat: every claim restricts values to be
  non-negative, where C++ int division agrees with Nat division, and no claim
  concerns 32-bit overflow.
-/

/-- main.cpp line 19: the compile-time bin count. -/
def NUM_BINS : Nat := 4

/-- main.cpp line 279: the bound handed to the random generator. -/
def MAX_VALUE : Nat := 120

/-- main.cpp line 302: BIN_SPAN = std::ceil(MAX_VALUE / NUM_BINS).  The
division is integer division, so it truncates before std::ceil is applied and
the ceiling is a no-op; the expression depends only on the constant MAX_VALUE,
never on the input vector. -/
def BIN_SPAN : Nat := MAX_VALUE / NUM_BINS

/-- The bin-span formula as the spec words it (section 3): the true ceiling of
the maximum of the input divided by the bin count K.  Kept separate from
BIN_SPAN so the two can be compared. -/
def specBinSpan (values : List Nat) (K : Nat) : Nat :=
  (values.foldr max 0 + K - 1) / K

/-- main.cpp lines 77-78 (and identically 196-197): the Binner.
val = values[i] > 0 ? values[i] - 1 : values[i]; idx = min(val / bin_span, K-1). -/
def binIdx (K bin_span v : Nat) : Nat :=
  min ((if 0 < v then v - 1 else v) / bin_span) (K - 1)

/-- main.cpp lines 79-81 (and 198-200): a zero-initialised length-K array with
the entry at the value's bin index incremented to 1. -/
def mapValue (K bin_span v : Nat) : List Nat :=
  (List.replicate K 0).set (binIdx K bin_span v) 1

/-- Element-wise sum of two bin vectors, as in the reduce body
(main.cpp lines 116-119 and 229-232). -/
def addVec (a b : List Nat) : List Nat := List.zipWith (· + ·) a b

/-- The zero-initialised bin array std::array{} (main.cpp lines 108, 111, 226). -/
def zeroVec (K : Nat) : List Nat := List.replicate K 0

/-- main.cpp lines 193-201: the sequential map step over the whole input. -/
def mapStage (K s : Nat) (values : List Nat) : List (List Nat) :=
  values.map (mapValue K s)

/-- main.cpp lines 226-233: the sequential reduce step, accumulating every
mapped vector into the zero array left to right. -/
def reduceStage (K : Nat) (mv : List (List Nat)) : List Nat :=
  mv.foldl addVec (zeroVec K)

/-- main.cpp lines 248-253 loop body: carry a running total through the bins,
recording it at each position. -/
def scanFrom (total : Nat) : List Nat → List Nat
  | [] => []
  | b :: bs => (total + b) :: scanFrom (total + b) bs

/-- main.cpp lines 246-253: the sequential scan step, total initialised to 0. -/
def scanStage (bins : List Nat) : List Nat := scanFrom 0 bins

/-- The histogram the sequential variant produces for a given input. -/
def sequential_histogram (K s : Nat) (values : List Nat) : List Nat :=
  reduceStage K (mapStage K s values)

/-- The cumulative histogram the sequential variant produces. -/
def sequential_cumulative (K s : Nat) (values : List Nat) : List Nat :=
  scanStage (sequential_histogram K s values)

/-- main.cpp lines 71-83: tbb::parallel_for splits the index range into chunks
and runs the map body on each chunk; every worker writes mapped_values[i] for
the disjoint indices i of its own chunk, so the result is the concatenation of
the per-chunk maps.  The chunk list is the (arbitrary) decomposition the
scheduler chose. -/
def parallelMapStage (K s : Nat) (chunks : List (List Nat)) : List (List Nat) :=
  (chunks.map (fun c => c.map (mapValue K s))).flatten

/-- main.cpp lines 123-131: the parallel_reduce join lambda,
res[i] = left[i] + right[i] for each i < K. -/
def joinBins (K : Nat) (left right : List Nat) : List Nat :=
  (List.range K).map (fun i => left.getD i 0 + right.getD i 0)

/-- The recursive range splitting performed by tbb::parallel_reduce on a
blocked_range: a leaf is a sub-range processed by the accumulation body,
a node joins the results of its two halves. -/
inductive RangeTree where
  | leaf : List (List Nat) → RangeTree
  | node : RangeTree → RangeTree → RangeTree

/-- The elements covered by a range tree, left to right. -/
def RangeTree.flatten : RangeTree → List (List Nat)
  | .leaf c => c
  | .node l r => l.flatten ++ r.flatten

/-- main.cpp lines 109-131: tbb::parallel_reduce over an arbitrary split tree.
Each leaf folds its chunk of mapped vectors into the identity array
std::array{} with the body lambda; each node combines with the join lambda. -/
def parallelReduceStage (K : Nat) : RangeTree → List Nat
  | .leaf c => c.foldl addVec (zeroVec K)
  | .node l r => joinBins K (parallelReduceStage K l) (parallelReduceStage K r)

/-- main.cpp lines 146-164: tbb::parallel_scan over an arbitrary ordered chunk
decomposition of the bins.  The pre-scan passes and the + combiner give each
final-scan chunk an incoming total equal to the sum of all earlier bins; the
final-scan body then writes the running total at every position of its chunk. -/
def parallelScanStage (chunks : List (List Nat)) : List Nat :=
  (chunks.foldl (fun acc c => (acc.1 + c.sum, acc.2 ++ scanFrom acc.1 c))
    ((0 : Nat), ([] : List Nat))).2

/- ### Basic facts about the binner -/

theorem binIdx_le (K s v : Nat) : binIdx K s v ≤ K - 1 :=
  min_le_right _ _

theorem binIdx_lt (K s v : Nat) (hK : 0 < K) : binIdx K s v < K :=
  lt_of_le_of_lt (binIdx_le K s v) (Nat.sub_lt hK Nat.one_pos)

theorem length_mapValue (K s v : Nat) : (mapValue K s v).length = K := by
  simp [mapValue]

/-- Claim C3: the Binner computes clamp(floor((v>0 ? v-1 : v) / s), 0, K-1);
for K=3 and span 40 it sends 0 and 40 to bin 0, 41 to bin 1, 120 to bin 2. -/
theorem binner_formula_and_boundaries (v s K : Nat) (hs : 0 < s) (hK : 1 ≤ K) :
    binIdx K s v = min (max ((if 0 < v then v - 1 else v) / s) 0) (K - 1)
    ∧ binIdx 3 40 0 = 0 ∧ binIdx 3 40 40 = 0
    ∧ binIdx 3 40 41 = 1 ∧ binIdx 3 40 120 = 2 := by
  refine ⟨?_, by decide, by decide, by decide, by decide⟩
  simp [binIdx]

theorem binner_formula_and_boundaries_witness :
    (0 : Nat) < 40 ∧ (1 : Nat) ≤ 3
    ∧ (binIdx 3 40 41 = min (max ((if 0 < (41 : Nat) then 41 - 1 else 41) / 40) 0) (3 - 1)
       ∧ binIdx 3 40 0 = 0 ∧ binIdx 3 40 40 = 0
       ∧ binIdx 3 40 41 = 1 ∧ binIdx 3 40 120 = 2) :=
  ⟨by decide, by decide, binner_formula_and_boundaries 41 40 3 (by decide) (by decide)⟩

/-- Claim C8: for every value and positive span the computed bin index stays
within [0, K-1], so the increment into the length-K per-value array is in
bounds. -/
theorem bin_index_in_bounds (v s K : Nat) (hs : 0 < s) (hK : 0 < K) :
    binIdx K s v ≤ K - 1 ∧ binIdx K s v < K ∧ (mapValue K s v).length = K :=
  ⟨binIdx_le K s v, binIdx_lt K s v hK, length_mapValue K s v⟩

theorem bin_index_in_bounds_witness :
    (0 : Nat) < 30 ∧ (0 : Nat) < 4
    ∧ (binIdx 4 30 120 ≤ 4 - 1 ∧ binIdx 4 30 120 < 4 ∧ (mapValue 4 30 120).length = 4) :=
  ⟨by decide, by decide, bin_index_in_bounds 120 30 4 (by decide) (by decide)⟩

/-- Claim C10: the Binner is monotone in the value. -/
theorem binner_monotone (K s v₁ v₂ : Nat) (hs : 0 < s) (h : v₁ ≤ v₂) :
    binIdx K s v₁ ≤ binIdx K s v₂ := by
  unfold binIdx
  refine min_le_min (Nat.div_le_div_right ?_) le_rfl
  by_cases h1 : 0 < v₁
  · have h2 : 0 < v₂ := lt_of_lt_of_le h1 h
    simp only [h1, h2, if_pos]
    exact Nat.sub_le_sub_right h 1
  · have hv0 : v₁ = 0 := Nat.eq_zero_of_not_pos h1
    subst hv0
    simp only [lt_irrefl, if_neg (lt_irrefl 0)]
    exact Nat.zero_le _

theorem binner_monotone_witness :
    (0 : Nat) < 40 ∧ (7 : Nat) ≤ 73 ∧ binIdx 3 40 7 ≤ binIdx 3 40 73 :=
  ⟨by decide, by decide, binner_monotone 3 40 7 73 (by decide) (by decide)⟩

/-- Claim C6: the end-to-end example from the spec: input
[0,7,8,10,24,48,73,120] with K = 3 bins, span ceil(120/3) = 40, yields the
histogram [5,2,1] and the cumulative histogram [5,7,8]. -/
theorem end_to_end_example :
    specBinSpan [0, 7, 8, 10, 24, 48, 73, 120] 3 = 40
    ∧ sequential_histogram 3 40 [0, 7, 8, 10, 24, 48, 73, 120] = [5, 2, 1]
    ∧ sequential_cumulative 3 40 [0, 7, 8, 10, 24, 48, 73, 120] = [5, 7, 8] := by
  refine ⟨by decide, ?_, ?_⟩ <;> decide

/- ### Element-wise vector algebra -/

theorem length_addVec (a b : List Nat) : (addVec a b).length = min a.length b.length := by
  simp [addVec]

theorem addVec_zero_right (a : List Nat) (K : Nat) (h : a.length = K) :
    addVec a (zeroVec K) = a := by
  subst h
  induction a with
  | nil => rfl
  | cons x xs ih => simpa [addVec, zeroVec, List.replicate_succ] using ih

theorem addVec_zero_left (a : List Nat) (K : Nat) (h : a.length = K) :
    addVec (zeroVec K) a = a := by
  subst h
  induction a with
  | nil => rfl
  | cons x xs ih => simpa [addVec, zeroVec, List.replicate_succ] using ih

theorem addVec_cons (x y : Nat) (xs ys : List Nat) :
    addVec (x :: xs) (y :: ys) = (x + y) :: addVec xs ys := rfl

theorem addVec_assoc (a b c : List Nat) :
    addVec (addVec a b) c = addVec a (addVec b c) := by
  induction a generalizing b c with
  | nil => simp [addVec]
  | cons x xs ih =>
    cases b with
    | nil => simp [addVec]
    | cons y ys =>
      cases c with
      | nil => simp [addVec]
      | cons z zs =>
        simp only [addVec_cons]
        rw [ih ys zs, Nat.add_assoc]

theorem addVec_right_comm (a b c : List Nat) :
    addVec (addVec a b) c = addVec (addVec a c) b := by
  induction a generalizing b c with
  | nil => simp [addVec]
  | cons x xs ih =>
    cases b with
    | nil =>
      cases c with
      | nil => rfl
      | cons z zs => simp [addVec]
    | cons y ys =>
      cases c with
      | nil => simp [addVec]
      | cons z zs =>
        simp only [addVec_cons]
        rw [ih ys zs, Nat.add_right_comm]

theorem sum_addVec (a b : List Nat) (h : a.length = b.length) :
    (addVec a b).sum = a.sum + b.sum := by
  induction a generalizing b with
  | nil =>
    cases b with
    | nil => rfl
    | cons y ys => simp at h
  | cons x xs ih =>
    cases b with
    | nil => simp at h
    | cons y ys =>
      simp only [List.length_cons, Nat.succ_inj] at h
      rw [addVec_cons, List.sum_cons, List.sum_cons, List.sum_cons, ih ys h]
      omega

theorem length_foldl_addVec (l : List (List Nat)) (b : List Nat) (K : Nat)
    (hb : b.length = K) (hl : ∀ x ∈ l, x.length = K) :
    (l.foldl addVec b).length = K := by
  induction l generalizing b with
  | nil => simpa using hb
  | cons x xs ih =>
    have hx : x.length = K := hl x (by simp)
    refine ih (addVec b x) ?_ (fun y hy => hl y (by simp [hy]))
    simp [length_addVec, hb, hx]

theorem foldl_addVec_eq (l : List (List Nat)) (b : List Nat) (K : Nat)
    (hb : b.length = K) (hl : ∀ x ∈ l, x.length = K) :
    l.foldl addVec b = addVec b (l.foldl addVec (zeroVec K)) := by
  induction l generalizing b with
  | nil => simp [addVec_zero_right b K hb]
  | cons x xs ih =>
    have hx : x.length = K := hl x (by simp)
    have hxs : ∀ y ∈ xs, y.length = K := fun y hy => hl y (by simp [hy])
    have hbx : (addVec b x).length = K := by simp [length_addVec, hb, hx]
    calc (x :: xs).foldl addVec b = xs.foldl addVec (addVec b x) := rfl
      _ = addVec (addVec b x) (xs.foldl addVec (zeroVec K)) := ih (addVec b x) hbx hxs
      _ = addVec b (addVec x (xs.foldl addVec (zeroVec K))) := addVec_assoc ..
      _ = addVec b ((x :: xs).foldl addVec (zeroVec K)) := by
            rw [show (x :: xs).foldl addVec (zeroVec K) = xs.foldl addVec (addVec (zeroVec K) x) from rfl,
              addVec_zero_left x K hx, ih x hx hxs]

theorem foldl_addVec_append (l₁ l₂ : List (List Nat)) (K : Nat)
    (h₁ : ∀ x ∈ l₁, x.length = K) (h₂ : ∀ x ∈ l₂, x.length = K) :
    (l₁ ++ l₂).foldl addVec (zeroVec K)
      = addVec (l₁.foldl addVec (zeroVec K)) (l₂.foldl addVec (zeroVec K)) := by
  rw [List.foldl_append]
  exact foldl_addVec_eq l₂ _ K (length_foldl_addVec l₁ _ K (by simp [zeroVec]) h₁) h₂

/- ### Scan lemmas -/

theorem length_scanFrom (t : Nat) (l : List Nat) : (scanFrom t l).length = l.length := by
  induction l generalizing t with
  | nil => rfl
  | cons b bs ih => simp [scanFrom, ih]

theorem scanFrom_append (t : Nat) (l₁ l₂ : List Nat) :
    scanFrom t (l₁ ++ l₂) = scanFrom t l₁ ++ scanFrom (t + l₁.sum) l₂ := by
  induction l₁ generalizing t with
  | nil => simp [scanFrom]
  | cons b bs ih => simp [scanFrom, ih, Nat.add_assoc]

theorem getD_scanFrom (t : Nat) (l : List Nat) (i : Nat) (hi : i < l.length) :
    (scanFrom t l).getD i 0 = t + (l.take (i + 1)).sum := by
  induction l generalizing t i with
  | nil => simp at hi
  | cons b bs ih =>
    cases i with
    | zero => simp [scanFrom]
    | succ j =>
      have hj : j < bs.length := by simpa using hi
      have hrec := ih (t + b) j hj
      simp only [scanFrom, List.getD_cons_succ, List.take_succ_cons, List.sum_cons]
      rw [hrec]
      omega

/- ### Parallel stages agree with the sequential stages -/

theorem mapStage_length_mem (K s : Nat) (values : List Nat) :
    ∀ x ∈ mapStage K s values, x.length = K := by
  intro x hx
  simp only [mapStage, List.mem_map] at hx
  obtain ⟨v, _, rfl⟩ := hx
  exact length_mapValue K s v

theorem parallelMapStage_eq (K s : Nat) (chunks : List (List Nat)) :
    parallelMapStage K s chunks = mapStage K s chunks.flatten := by
  simp [parallelMapStage, mapStage, List.map_flatten]

theorem length_joinBins (K : Nat) (a b : List Nat) : (joinBins K a b).length = K := by
  simp [joinBins]

theorem joinBins_eq_addVec (K : Nat) (a b : List Nat)
    (ha : a.length = K) (hb : b.length = K) : joinBins K a b = addVec a b := by
  induction K generalizing a b with
  | zero =>
    have ha0 : a = [] := List.length_eq_zero.mp ha
    have hb0 : b = [] := List.length_eq_zero.mp hb
    subst ha0; subst hb0; rfl
  | succ n ih =>
    cases a with
    | nil => simp at ha
    | cons x xs =>
      cases b with
      | nil => simp at hb
      | cons y ys =>
        have hxs : xs.length = n := by simpa using ha
        have hys : ys.length = n := by simpa using hb
        have hstep : joinBins (n + 1) (x :: xs) (y :: ys) = (x + y) :: joinBins n xs ys := by
          simp [joinBins, List.range_succ_eq_map, List.map_map, Function.comp]
        rw [hstep, addVec_cons, ih xs ys hxs hys]

theorem parallelReduceStage_eq (K : Nat) (t : RangeTree)
    (h : ∀ x ∈ t.flatten, x.length = K) :
    parallelReduceStage K t = reduceStage K t.flatten := by
  induction t with
  | leaf c => rfl
  | node l r ihl ihr =>
    have hl : ∀ x ∈ l.flatten, x.length = K := fun x hx =>
      h x (by simp [RangeTree.flatten, hx])
    have hr : ∀ x ∈ r.flatten, x.length = K := fun x hx =>
      h x (by simp [RangeTree.flatten, hx])
    have hll : (reduceStage K l.flatten).length = K :=
      length_foldl_addVec _ _ K (by simp [zeroVec]) hl
    have hrl : (reduceStage K r.flatten).length = K :=
      length_foldl_addVec _ _ K (by simp [zeroVec]) hr
    calc parallelReduceStage K (.node l r)
        = joinBins K (reduceStage K l.flatten) (reduceStage K r.flatten) := by
          simp [parallelReduceStage, ihl hl, ihr hr]
      _ = addVec (reduceStage K l.flatten) (reduceStage K r.flatten) :=
          joinBins_eq_addVec K _ _ hll hrl
      _ = reduceStage K (l.flatten ++ r.flatten) :=
          (foldl_addVec_append _ _ K hl hr).symm
      _ = reduceStage K (RangeTree.node l r).flatten := rfl

theorem parallelScanStage_foldl (chunks : List (List Nat)) (t : Nat) (out : List Nat) :
    (chunks.foldl (fun acc c => (acc.1 + c.sum, acc.2 ++ scanFrom acc.1 c)) (t, out)).2
      = out ++ scanFrom t chunks.flatten := by
  induction chunks generalizing t out with
  | nil => simp [scanFrom]
  | cons c cs ih =>
    simp only [List.foldl_cons, List.flatten_cons]
    rw [ih, scanFrom_append, List.append_assoc]

theorem parallelScanStage_eq (chunks : List (List Nat)) :
    parallelScanStage chunks = scanStage chunks.flatten := by
  simp [parallelScanStage, scanStage, parallelScanStage_foldl]

theorem parallel_run_eq (K s : Nat) (values : List Nat)
    (mc : List (List Nat)) (hmc : mc.flatten = values)
    (t : RangeTree) (ht : t.flatten = parallelMapStage K s mc)
    (sc : List (List Nat)) (hsc : sc.flatten = parallelReduceStage K t) :
    parallelMapStage K s mc = mapStage K s values
    ∧ parallelReduceStage K t = sequential_histogram K s values
    ∧ parallelScanStage sc = sequential_cumulative K s values := by
  have hmap : parallelMapStage K s mc = mapStage K s values := by
    rw [parallelMapStage_eq, hmc]
  have hlen : ∀ x ∈ t.flatten, x.length = K := by
    rw [ht, hmap]; exact mapStage_length_mem K s values
  have hred : parallelReduceStage K t = sequential_histogram K s values := by
    rw [parallelReduceStage_eq K t hlen, ht, hmap]; rfl
  refine ⟨hmap, hred, ?_⟩
  rw [parallelScanStage_eq, hsc, hred]; rfl

/-- Claim C1: for every input of non-negative integers and positive bin span,
the parallel variant (whatever chunking tbb picks for the map, whatever split
tree for the reduce, whatever ordered chunking for the scan) produces exactly
the histogram and the cumulative histogram of the sequential variant. -/
theorem par_seq_equiv (K s : Nat) (values : List Nat) (hs : 0 < s)
    (mc : List (List Nat)) (hmc : mc.flatten = values)
    (t : RangeTree) (ht : t.flatten = parallelMapStage K s mc)
    (sc : List (List Nat)) (hsc : sc.flatten = parallelReduceStage K t) :
    parallelReduceStage K t = sequential_histogram K s values
    ∧ parallelScanStage sc = sequential_cumulative K s values :=
  (parallel_run_eq K s values mc hmc t ht sc hsc).2

theorem par_seq_equiv_witness :
    (0 : Nat) < 30
    ∧ ([[0, 31], [120]] : List (List Nat)).flatten = [0, 31, 120]
    ∧ (RangeTree.node (.leaf [mapValue 4 30 0, mapValue 4 30 31])
        (.leaf [mapValue 4 30 120])).flatten = parallelMapStage 4 30 [[0, 31], [120]]
    ∧ ([[1, 1], [0, 1]] : List (List Nat)).flatten
        = parallelReduceStage 4 (RangeTree.node (.leaf [mapValue 4 30 0, mapValue 4 30 31])
            (.leaf [mapValue 4 30 120]))
    ∧ (parallelReduceStage 4 (RangeTree.node (.leaf [mapValue 4 30 0, mapValue 4 30 31])
          (.leaf [mapValue 4 30 120])) = sequential_histogram 4 30 [0, 31, 120]
       ∧ parallelScanStage [[1, 1], [0, 1]] = sequential_cumulative 4 30 [0, 31, 120]) :=
  ⟨by decide, by decide, by decide, by decide,
    par_seq_equiv 4 30 [0, 31, 120] (by decide) [[0, 31], [120]] (by decide)
      (RangeTree.node (.leaf [mapValue 4 30 0, mapValue 4 30 31]) (.leaf [mapValue 4 30 120]))
      (by decide) [[1, 1], [0, 1]] (by decide)⟩

/-- Claim C9: determinism: two runs of the pipeline on the same input and the
same bin span, each with its own (arbitrary) parallel decomposition, produce
the same map output, histogram and cumulative histogram, which are also those
of the sequential variant. -/
theorem pipeline_deterministic (K s : Nat) (values : List Nat)
    (mc₁ mc₂ : List (List Nat)) (h₁ : mc₁.flatten = values) (h₂ : mc₂.flatten = values)
    (t₁ t₂ : RangeTree) (ht₁ : t₁.flatten = parallelMapStage K s mc₁)
    (ht₂ : t₂.flatten = parallelMapStage K s mc₂)
    (sc₁ sc₂ : List (List Nat)) (hc₁ : sc₁.flatten = parallelReduceStage K t₁)
    (hc₂ : sc₂.flatten = parallelReduceStage K t₂) :
    (parallelMapStage K s mc₁ = parallelMapStage K s mc₂
      ∧ parallelMapStage K s mc₁ = mapStage K s values)
    ∧ (parallelReduceStage K t₁ = parallelReduceStage K t₂
      ∧ parallelReduceStage K t₁ = sequential_histogram K s values)
    ∧ (parallelScanStage sc₁ = parallelScanStage sc₂
      ∧ parallelScanStage sc₁ = sequential_cumulative K s values) := by
  obtain ⟨m₁, r₁, c₁⟩ := parallel_run_eq K s values mc₁ h₁ t₁ ht₁ sc₁ hc₁
  obtain ⟨m₂, r₂, c₂⟩ := parallel_run_eq K s values mc₂ h₂ t₂ ht₂ sc₂ hc₂
  exact ⟨⟨m₁.trans m₂.symm, m₁⟩, ⟨r₁.trans r₂.symm, r₁⟩, ⟨c₁.trans c₂.symm, c₁⟩⟩

theorem pipeline_deterministic_witness :
    ([[0, 31, 120]] : List (List Nat)).flatten = [0, 31, 120]
    ∧ ([[0], [31, 120]] : List (List Nat)).flatten = [0, 31, 120]
    ∧ (RangeTree.leaf [mapValue 4 30 0, mapValue 4 30 31, mapValue 4 30 120]).flatten
        = parallelMapStage 4 30 [[0, 31, 120]]
    ∧ (RangeTree.node (.leaf [mapValue 4 30 0])
        (.leaf [mapValue 4 30 31, mapValue 4 30 120])).flatten
        = parallelMapStage 4 30 [[0], [31, 120]]
    ∧ ([[1, 1, 0, 1]] : List (List Nat)).flatten
        = parallelReduceStage 4 (.leaf [mapValue 4 30 0, mapValue 4 30 31, mapValue 4 30 120])
    ∧ ([[1], [1, 0, 1]] : List (List Nat)).flatten
        = parallelReduceStage 4 (.node (.leaf [mapValue 4 30 0])
            (.leaf [mapValue 4 30 31, mapValue 4 30 120]))
    ∧ ((parallelMapStage 4 30 [[0, 31, 120]] = parallelMapStage 4 30 [[0], [31, 120]]
          ∧ parallelMapStage 4 30 [[0, 31, 120]] = mapStage 4 30 [0, 31, 120])
       ∧ (parallelReduceStage 4 (.leaf [mapValue 4 30 0, mapValue 4 30 31, mapValue 4 30 120])
            = parallelReduceStage 4 (.node (.leaf [mapValue 4 30 0])
                (.leaf [mapValue 4 30 31, mapValue 4 30 120]))
          ∧ parallelReduceStage 4 (.leaf [mapValue 4 30 0, mapValue 4 30 31, mapValue 4 30 120])
            = sequential_histogram 4 30 [0, 31, 120])
       ∧ (parallelScanStage [[1, 1, 0, 1]] = parallelScanStage [[1], [1, 0, 1]]
          ∧ parallelScanStage [[1, 1, 0, 1]] = sequential_cumulative 4 30 [0, 31, 120])) :=
  ⟨by decide, by decide, by decide, by decide, by decide, by decide,
    pipeline_deterministic 4 30 [0, 31, 120] [[0, 31, 120]] [[0], [31, 120]]
      (by decide) (by decide)
      (.leaf [mapValue 4 30 0, mapValue 4 30 31, mapValue 4 30 120])
      (.node (.leaf [mapValue 4 30 0]) (.leaf [mapValue 4 30 31, mapValue 4 30 120]))
      (by decide) (by decide) [[1, 1, 0, 1]] [[1], [1, 0, 1]] (by decide) (by decide)⟩

/- ### Prefix sums -/

theorem length_sequential_histogram (K s : Nat) (values : List Nat) :
    (sequential_histogram K s values).length = K :=
  length_foldl_addVec _ _ K (by simp [zeroVec]) (mapStage_length_mem K s values)

/-- Claim C4: entry i of the cumulative histogram equals the sum of histogram
entries 0 through i inclusive, both for the sequential scan loop and for the
parallel scan over any ordered chunk decomposition of the histogram. -/
theorem scan_cumulative_sums (K s : Nat) (values : List Nat) (i : Nat) (hi : i < K)
    (sc : List (List Nat)) (hsc : sc.flatten = sequential_histogram K s values) :
    (sequential_cumulative K s values).getD i 0
      = ((sequential_histogram K s values).take (i + 1)).sum
    ∧ (parallelScanStage sc).getD i 0
      = ((sequential_histogram K s values).take (i + 1)).sum := by
  have hlen : i < (sequential_histogram K s values).length := by
    rw [length_sequential_histogram]; exact hi
  have h1 : (sequential_cumulative K s values).getD i 0
      = ((sequential_histogram K s values).take (i + 1)).sum := by
    have := getD_scanFrom 0 (sequential_histogram K s values) i hlen
    simpa [sequential_cumulative, scanStage] using this
  have h2 : parallelScanStage sc = sequential_cumulative K s values := by
    rw [parallelScanStage_eq, hsc]; rfl
  exact ⟨h1, by rw [h2]; exact h1⟩

theorem scan_cumulative_sums_witness :
    (2 : Nat) < 4
    ∧ ([[1, 1], [0, 1]] : List (List Nat)).flatten = sequential_histogram 4 30 [0, 31, 120]
    ∧ ((sequential_cumulative 4 30 [0, 31, 120]).getD 2 0
        = ((sequential_histogram 4 30 [0, 31, 120]).take 3).sum
       ∧ (parallelScanStage [[1, 1], [0, 1]]).getD 2 0
        = ((sequential_histogram 4 30 [0, 31, 120]).take 3).sum) :=
  ⟨by decide, by decide,
    scan_cumulative_sums 4 30 [0, 31, 120] 2 (by decide) [[1, 1], [0, 1]] (by decide)⟩

/- ### Mass conservation -/

theorem sum_replicate_set (K i : Nat) (hi : i < K) :
    ((List.replicate K 0).set i 1).sum = 1 := by
  induction K generalizing i with
  | zero => exact absurd hi (Nat.not_lt_zero i)
  | succ n ih =>
    cases i with
    | zero => simp [List.replicate_succ]
    | succ j =>
      have hj : j < n := by omega
      simp [List.replicate_succ, ih j hj]

theorem sum_mapValue (K s v : Nat) (hK : 0 < K) : (mapValue K s v).sum = 1 :=
  sum_replicate_set K _ (binIdx_lt K s v hK)

theorem sum_foldl_addVec (l : List (List Nat)) (b : List Nat) (K : Nat)
    (hb : b.length = K) (hl : ∀ x ∈ l, x.length = K) :
    (l.foldl addVec b).sum = b.sum + (l.map List.sum).sum := by
  induction l generalizing b with
  | nil => simp
  | cons x xs ih =>
    have hx : x.length = K := hl x (by simp)
    have hbx : (addVec b x).length = K := by simp [length_addVec, hb, hx]
    have hrec := ih (addVec b x) hbx (fun y hy => hl y (by simp [hy]))
    simp only [List.foldl_cons, List.map_cons, List.sum_cons]
    rw [hrec, sum_addVec b x (by rw [hb, hx])]
    omega

theorem sum_map_one (l : List Nat) : (l.map (fun _ => (1 : Nat))).sum = l.length := by
  induction l with
  | nil => rfl
  | cons x xs ih => simp [ih, Nat.add_comm]

theorem sum_sequential_histogram (K s : Nat) (values : List Nat) (hK : 0 < K) :
    (sequential_histogram K s values).sum = values.length := by
  have h := sum_foldl_addVec (mapStage K s values) (zeroVec K) K (by simp [zeroVec])
    (mapStage_length_mem K s values)
  have hmap : (mapStage K s values).map List.sum = values.map (fun _ => (1 : Nat)) := by
    simp only [mapStage, List.map_map]
    exact List.map_congr_left (fun v _ => sum_mapValue K s v hK)
  calc (sequential_histogram K s values).sum
      = (zeroVec K).sum + ((mapStage K s values).map List.sum).sum := h
    _ = ((mapStage K s values).map List.sum).sum := by simp [zeroVec]
    _ = (values.map (fun _ => (1 : Nat))).sum := by rw [hmap]
    _ = values.length := sum_map_one values

theorem sum_take_mono (l : List Nat) (i j : Nat) (h : i ≤ j) :
    (l.take i).sum ≤ (l.take j).sum := by
  have hsplit : l.take j = l.take i ++ (l.drop i).take (j - i) := by
    rw [← List.take_add]
    congr 1
    omega
  rw [hsplit, List.sum_append]
  exact Nat.le_add_right _ _

/-- Claim C5: for every non-empty input of non-negative integers, positive bin
span and K ≥ 1, the histogram entries are non-negative and sum to N, so the
cumulative histogram is non-decreasing and its final entry is N. -/
theorem histogram_mass (K s : Nat) (values : List Nat) (hne : values ≠ [])
    (hs : 0 < s) (hK : 1 ≤ K) :
    (∀ x ∈ sequential_histogram K s values, 0 ≤ x)
    ∧ (sequential_histogram K s values).sum = values.length
    ∧ (∀ i j, i ≤ j → j < K →
        (sequential_cumulative K s values).getD i 0
          ≤ (sequential_cumulative K s values).getD j 0)
    ∧ (sequential_cumulative K s values).getD (K - 1) 0 = values.length := by
  refine ⟨fun x _ => Nat.zero_le x, sum_sequential_histogram K s values hK, ?_, ?_⟩
  · intro i j hij hj
    have hjl : j < (sequential_histogram K s values).length := by
      rw [length_sequential_histogram]; exact hj
    have hil : i < (sequential_histogram K s values).length := by omega
    have hgi := getD_scanFrom 0 (sequential_histogram K s values) i hil
    have hgj := getD_scanFrom 0 (sequential_histogram K s values) j hjl
    simp only [sequential_cumulative, scanStage]
    rw [hgi, hgj]
    simpa using sum_take_mono (sequential_histogram K s values) (i + 1) (j + 1) (by omega)
  · have hKl : K - 1 < (sequential_histogram K s values).length := by
      rw [length_sequential_histogram]; omega
    have hg := getD_scanFrom 0 (sequential_histogram K s values) (K - 1) hKl
    have htake : K - 1 + 1 = (sequential_histogram K s values).length := by
      rw [length_sequential_histogram]; omega
    simp only [sequential_cumulative, scanStage]
    rw [hg, htake, List.take_length, sum_sequential_histogram K s values hK]
    omega

theorem histogram_mass_witness :
    ([0, 31, 120] : List Nat) ≠ [] ∧ (0 : Nat) < 30 ∧ (1 : Nat) ≤ 4
    ∧ ((∀ x ∈ sequential_histogram 4 30 [0, 31, 120], 0 ≤ x)
       ∧ (sequential_histogram 4 30 [0, 31, 120]).sum = ([0, 31, 120] : List Nat).length
       ∧ (∀ i j, i ≤ j → j < 4 →
            (sequential_cumulative 4 30 [0, 31, 120]).getD i 0
              ≤ (sequential_cumulative 4 30 [0, 31, 120]).getD j 0)
       ∧ (sequential_cumulative 4 30 [0, 31, 120]).getD (4 - 1) 0
           = ([0, 31, 120] : List Nat).length) :=
  ⟨by decide, by decide, by decide,
    histogram_mass 4 30 [0, 31, 120] (by decide) (by decide) (by decide)⟩

/- ### Permutation invariance -/

theorem sequential_histogram_foldl (K s : Nat) (w : List Nat) :
    sequential_histogram K s w
      = w.foldl (fun b v => addVec b (mapValue K s v)) (zeroVec K) := by
  rw [sequential_histogram, reduceStage, mapStage, List.foldl_map]

/-- Claim C7: permuting the input changes neither the histogram nor the
cumulative histogram: binning is per-element and element-wise addition of bin
vectors is commutative and associative with the zero vector as identity. -/
theorem perm_invariance (K s : Nat) (values values' : List Nat) (hs : 0 < s)
    (hp : List.Perm values values') :
    sequential_histogram K s values = sequential_histogram K s values'
    ∧ sequential_cumulative K s values = sequential_cumulative K s values' := by
  have hhist : sequential_histogram K s values = sequential_histogram K s values' := by
    rw [sequential_histogram_foldl, sequential_histogram_foldl]
    haveI : RightCommutative (fun (b : List Nat) (v : Nat) => addVec b (mapValue K s v)) :=
      ⟨fun b v w => addVec_right_comm b (mapValue K s v) (mapValue K s w)⟩
    exact hp.foldl_eq (zeroVec K)
  exact ⟨hhist, by rw [sequential_cumulative, hhist]; rfl⟩

theorem perm_invariance_witness :
    (0 : Nat) < 30 ∧ List.Perm [0, 31, 120] [120, 0, 31]
    ∧ (sequential_histogram 4 30 [0, 31, 120] = sequential_histogram 4 30 [120, 0, 31]
       ∧ sequential_cumulative 4 30 [0, 31, 120] = sequential_cumulative 4 30 [120, 0, 31]) :=
  ⟨by decide, by decide,
    perm_invariance 4 30 [0, 31, 120] [120, 0, 31] (by decide) (by decide)⟩

/- ### The bin-span computation of the driver -/

/-- Claim C2: the driver does NOT compute ceil(max(input)/K).  It sets
BIN_SPAN = std::ceil(MAX_VALUE / NUM_BINS) = 30 from the compile-time constant
MAX_VALUE = 120 with truncating integer division, independent of the input,
although the comment above it says to take the biggest element of the vector:
on the input [0,7,8,10,24,48,73,100] the spec formula gives 25, not 30. -/
theorem bin_span_code_bug :
    BIN_SPAN = 30
    ∧ specBinSpan [0, 7, 8, 10, 24, 48, 73, 100] NUM_BINS = 25
    ∧ BIN_SPAN ≠ specBinSpan [0, 7, 8, 10, 24, 48, 73, 100] NUM_BINS :=
  ⟨by decide, by decide, by decide⟩
